import Mathlib

/-!
Verification of the rust-link-shortener repository.

The development embeds the two components of the core:
* the key generator `format_radix` (src/src/utils/format_radix.rs, duplicated
  verbatim inside `create_short_url` in src/src/main.rs), and
* the link store backed by the SQLite table
  `links (key TEXT PRIMARY KEY, uri TEXT NOT NULL)`, accessed through
  `INSERT INTO links (key, uri) VALUES (?1, ?2)` (`create_short_url`,
  src/src/main.rs) and `SELECT key, uri FROM links WHERE key = ?` (`get_url`,
  src/src/main.rs).

Machine integers: `format_radix` takes `x : u128` and `radix : u32`; the loop
only divides and takes remainders, so no overflow or wrap-around can occur and
both are embedded as `Nat` (every theorem proved for all of `Nat` covers in
particular the `u128` range).
-/

namespace LinkShortener
/-- The digit-to-character conversion performed by the Rust function
`std::char::from_digit`: digits `0..9` map to `'0'..'9'` (codepoints 48+m),
digits `10..35` map to `'a'..'z'` (codepoints 97+(m-10)). -/
def digitChar (m : Nat) : Char :=
  if m < 10 then Char.ofNat (48 + m) else Char.ofNat (97 + (m - 10))

/-- The Rust function `std::char::from_digit(num, radix)`: returns `none` when `num` is
not a digit in the given radix, otherwise the digit character. (Rust panics
when `radix > 36`; at the single call site in `format_radix` the radix has
already been clamped to `[2, 36]`, so that branch is unreachable and is not
modelled separately.) -/
def charFromDigit (m radix : Nat) : Option Char :=
  if m < radix then some (digitChar m) else none

/-- The clamping on line 4 of src/src/utils/format_radix.rs:
`let radix = radix.min(36).max(2);`. -/
def clampRadix (radix : Nat) : Nat := max (min radix 36) 2

/-- The `loop { ... }` body of `format_radix`, producing the pushed characters
least-significant digit first (the Rust code reverses them afterwards).
`none` models the `.unwrap()` panic on `std::char::from_digit`. The loop is
only ever entered with the clamped radix, whence the `2 ≤ radix` argument,
which justifies termination: `x / radix < x` whenever the loop repeats. -/
def formatRadixLoop (radix : Nat) (h2 : 2 ≤ radix) (x : Nat) : Option (List Char) :=
  match charFromDigit (x % radix) radix with
  | none => none
  | some c =>
    if hx : x / radix = 0 then some [c]
    else
      match formatRadixLoop radix h2 (x / radix) with
      | none => none
      | some rest => some (c :: rest)
termination_by x
decreasing_by
  have hx0 : x ≠ 0 := fun h0 => hx (by simp [h0])
  exact Nat.div_lt_self (Nat.pos_of_ne_zero hx0) (by omega)

/-- `format_radix` from src/src/utils/format_radix.rs (also inlined in
`create_short_url` in src/src/main.rs): clamp the radix, run the digit loop,
reverse the pushed characters and collect them into a string. `none` models
the `.unwrap()` panic inside the loop. -/
def format_radix (x radix : Nat) : Option String :=
  match formatRadixLoop (clampRadix radix) (Nat.le_max_right (min radix 36) 2) x with
  | none => none
  | some result => some ⟨result.reverse⟩

/-- Step-indexed execution of the same loop: `fuel` bounds the number of
iterations. `none` means the loop has not reached `break` within `fuel`
iterations; `some none` models the `.unwrap()` panic; `some (some l)` means
the loop terminated normally having pushed `l` (least-significant first). -/
def formatRadixIter (radix : Nat) : Nat → Nat → Option (Option (List Char))
  | 0, _ => none
  | fuel + 1, x =>
    match charFromDigit (x % radix) radix with
    | none => some none
    | some c =>
      if x / radix = 0 then some (some [c])
      else
        match formatRadixIter radix fuel (x / radix) with
        | none => none
        | some none => some none
        | some (some rest) => some (some (c :: rest))

/-- The digit values produced by the loop of `format_radix`, least-significant
first: the loop pushes `digitChar` of exactly these values. -/
def natDigits (radix : Nat) (h2 : 2 ≤ radix) (x : Nat) : List Nat :=
  if hx : x / radix = 0 then [x % radix]
  else x % radix :: natDigits radix h2 (x / radix)
termination_by x
decreasing_by
  have hx0 : x ≠ 0 := fun h0 => hx (by simp [h0])
  exact Nat.div_lt_self (Nat.pos_of_ne_zero hx0) (by omega)

/-- Value of a least-significant-digit-first digit list. -/
def valLSB (radix : Nat) : List Nat → Nat
  | [] => 0
  | d :: ds => d + radix * valLSB radix ds

/-- Value of a most-significant-digit-first digit list. -/
def valMSB (radix : Nat) : List Nat → Nat
  | [] => 0
  | d :: ds => d * radix ^ ds.length + valMSB radix ds

/-- Interpretation of a generated key as a base-36 numeral over the digit
alphabet `0-9a-z`, most-significant digit first. This is the spec-side
decoder used to state the round-trip property; it is not part of the Rust
source. -/
def digitVal (c : Char) : Nat :=
  if c.toNat ≤ 57 then c.toNat - 48 else c.toNat - 87

def decodeBase36 (s : String) : Nat :=
  s.data.foldl (fun acc c => acc * 36 + digitVal c) 0

/-- The error surfaced by the store when an insert hits the primary-key
uniqueness constraint (`KeyConflict` in the error taxonomy of the spec; in the source the
rusqlite constraint-violation error is `.unwrap()`ed into a request failure,
and in either case the insert does not take effect). -/
inductive StoreError where
  | KeyConflict
  deriving DecidableEq

/-- The persisted `links` table created by `main` (src/src/main.rs):
`links (key TEXT PRIMARY KEY, uri TEXT NOT NULL)`. Rows are kept in insertion
order. -/
structure LinksDB where
  rows : List (String × String)
  deriving DecidableEq

/-- The table contents on first startup (`CREATE TABLE IF NOT EXISTS` against
a fresh database file). -/
def emptyDB : LinksDB := ⟨[]⟩

/-- The store-level insert executed by `create_short_url` (src/src/main.rs):
`INSERT INTO links (key, uri) VALUES (?1, ?2)`. SQLite rejects the insert
with a constraint violation when a row with the same primary key already
exists, and otherwise appends the new row; no existing row is ever modified. -/
def create (db : LinksDB) (key uri : String) : Except StoreError LinksDB :=
  if db.rows.any (fun r => r.1 == key) then Except.error StoreError.KeyConflict
  else Except.ok ⟨db.rows ++ [(key, uri)]⟩

/-- The store-level lookup executed by `get_url` (src/src/main.rs):
`SELECT key, uri FROM links WHERE key = ?` followed by taking the first
returned row (`result.next()`); the `None` row becomes the 404 branch. -/
def resolve (db : LinksDB) (key : String) : Option String :=
  (db.rows.find? (fun r => r.1 == key)).map (fun r => r.2)

/-- The operations the subsystem exposes to callers. -/
inductive Op where
  | create (key uri : String)
  | resolve (key : String)
  deriving DecidableEq

/-- Effect of one exposed operation on the table: a rejected insert leaves
the table unchanged (the constraint violation aborts the statement before any
write), and a lookup never writes. -/
def applyOp (db : LinksDB) : Op → LinksDB
  | Op.create key uri =>
    match create db key uri with
    | Except.ok db1 => db1
    | Except.error _ => db
  | Op.resolve _ => db

/-- The table reached after a sequence of exposed operations. -/
def runOps (db : LinksDB) (ops : List Op) : LinksDB :=
  ops.foldl applyOp db

theorem clampRadix_ge2 (radix : Nat) : 2 ≤ clampRadix radix :=
  Nat.le_max_right (min radix 36) 2

theorem clampRadix_le36 (radix : Nat) : clampRadix radix ≤ 36 := by
  unfold clampRadix; omega

theorem clampRadix_idem (radix : Nat) : clampRadix (clampRadix radix) = clampRadix radix := by
  unfold clampRadix; omega

theorem formatRadixLoop_congr {r1 r2 : Nat} (h : r1 = r2) (h1 : 2 ≤ r1) (h2 : 2 ≤ r2)
    (x : Nat) : formatRadixLoop r1 h1 x = formatRadixLoop r2 h2 x := by
  subst h; rfl

/-- With the clamped radix, `fuel > x` iterations always suffice, and the
step-indexed loop computes exactly what the recursive loop computes. -/
theorem formatRadixIter_eq_loop (radix : Nat) (h2 : 2 ≤ radix) :
    ∀ fuel x, x < fuel →
      formatRadixIter radix fuel x = some (formatRadixLoop radix h2 x) := by
  intro fuel
  induction fuel with
  | zero => intro x hx; omega
  | succ fuel ih =>
    intro x hx
    rw [formatRadixLoop]
    unfold formatRadixIter
    cases hc : charFromDigit (x % radix) radix with
    | none => simp
    | some c =>
      simp only
      by_cases hdiv : x / radix = 0
      · simp [hdiv]
      · have hx0 : x ≠ 0 := fun h0 => hdiv (by simp [h0])
        have hlt : x / radix < x := Nat.div_lt_self (Nat.pos_of_ne_zero hx0) (by omega)
        have := ih (x / radix) (by omega)
        rw [this]
        simp only [hdiv]
        cases formatRadixLoop radix h2 (x / radix) <;> simp

/-- Whenever the step-indexed loop reaches `break` (or the panic) within its
fuel, its outcome is the outcome of the recursive loop. -/
theorem formatRadixLoop_of_iter (radix : Nat) (h2 : 2 ≤ radix) :
    ∀ fuel x o, formatRadixIter radix fuel x = some o →
      formatRadixLoop radix h2 x = o := by
  intro fuel
  induction fuel with
  | zero => intro x o h; simp [formatRadixIter] at h
  | succ fuel ih =>
    intro x o h
    rw [formatRadixLoop]
    unfold formatRadixIter at h
    cases hc : charFromDigit (x % radix) radix with
    | none =>
      rw [hc] at h
      simp only [Option.some.injEq] at h
      exact h
    | some c =>
      rw [hc] at h
      simp only at h
      by_cases hdiv : x / radix = 0
      · rw [if_pos hdiv] at h
        simp only [Option.some.injEq] at h
        simp [hdiv, h]
      · rw [if_neg hdiv] at h
        cases hi : formatRadixIter radix fuel (x / radix) with
        | none => rw [hi] at h; cases h
        | some o1 =>
          rw [hi] at h
          have hrec := ih (x / radix) o1 hi
          simp only [hdiv, dite_false]
          rw [hrec]
          cases o1 with
          | none => simp only [Option.some.injEq] at h; exact h
          | some rest => simp only [Option.some.injEq] at h; exact h

/-- Concrete-evaluation bridge: to compute `format_radix` on a literal input,
run the step-indexed loop with any sufficient fuel (which `rfl` can
evaluate). -/
theorem format_radix_eval (x radix fuel : Nat) (l : List Char)
    (h : formatRadixIter (clampRadix radix) fuel x = some (some l)) :
    format_radix x radix = some ⟨l.reverse⟩ := by
  have hl := formatRadixLoop_of_iter (clampRadix radix) (clampRadix_ge2 radix)
    fuel x (some l) h
  unfold format_radix
  rw [hl]

theorem formatRadixLoop_eq_map (radix : Nat) (h2 : 2 ≤ radix) (x : Nat) :
    formatRadixLoop radix h2 x = some ((natDigits radix h2 x).map digitChar) := by
  induction x using Nat.strong_induction_on with
  | _ x ih =>
    rw [formatRadixLoop, natDigits]
    have hm : x % radix < radix := Nat.mod_lt _ (by omega)
    by_cases hdiv : x / radix = 0
    · simp [charFromDigit, hm, hdiv]
    · have hx0 : x ≠ 0 := fun h0 => hdiv (by simp [h0])
      have hlt : x / radix < x := Nat.div_lt_self (Nat.pos_of_ne_zero hx0) (by omega)
      simp [charFromDigit, hm, hdiv, ih (x / radix) hlt]

theorem natDigits_lt (radix : Nat) (h2 : 2 ≤ radix) (x : Nat) :
    ∀ d ∈ natDigits radix h2 x, d < radix := by
  induction x using Nat.strong_induction_on with
  | _ x ih =>
    rw [natDigits]
    have hm : x % radix < radix := Nat.mod_lt _ (by omega)
    by_cases hdiv : x / radix = 0
    · simp [hdiv, hm]
    · have hx0 : x ≠ 0 := fun h0 => hdiv (by simp [h0])
      have hlt : x / radix < x := Nat.div_lt_self (Nat.pos_of_ne_zero hx0) (by omega)
      simp only [hdiv, dite_false]
      intro d hd
      rcases List.mem_cons.mp hd with h | h
      · omega
      · exact ih (x / radix) hlt d h

theorem valLSB_natDigits (radix : Nat) (h2 : 2 ≤ radix) (x : Nat) :
    valLSB radix (natDigits radix h2 x) = x := by
  induction x using Nat.strong_induction_on with
  | _ x ih =>
    rw [natDigits]
    by_cases hdiv : x / radix = 0
    · simp only [hdiv, dite_true, valLSB]
      have h := Nat.mod_add_div x radix
      rw [hdiv] at h
      simpa using h
    · have hx0 : x ≠ 0 := fun h0 => hdiv (by simp [h0])
      have hlt : x / radix < x := Nat.div_lt_self (Nat.pos_of_ne_zero hx0) (by omega)
      simp only [hdiv, dite_false, valLSB, ih (x / radix) hlt]
      exact Nat.mod_add_div x radix

theorem valMSB_append (radix : Nat) (l1 l2 : List Nat) :
    valMSB radix (l1 ++ l2) = valMSB radix l1 * radix ^ l2.length + valMSB radix l2 := by
  induction l1 with
  | nil => simp [valMSB]
  | cons d ds ih =>
    simp only [List.cons_append, valMSB, List.append_eq, ih, List.length_append, pow_add]
    ring

theorem valMSB_reverse (radix : Nat) (l : List Nat) :
    valMSB radix l.reverse = valLSB radix l := by
  induction l with
  | nil => rfl
  | cons d ds ih =>
    simp only [List.reverse_cons, valMSB_append, valMSB, valLSB, ih,
      List.length_cons, List.length_nil]
    ring

theorem valMSB_lt_pow (radix : Nat) (l : List Nat) (h : ∀ d ∈ l, d < radix)
    (h0 : 0 < radix) : valMSB radix l < radix ^ l.length := by
  induction l with
  | nil => simp [valMSB]
  | cons d ds ih =>
    simp only [valMSB, List.length_cons, pow_succ]
    have hd : d < radix := h d (by simp)
    have hds := ih (fun e he => h e (by simp [he]))
    calc d * radix ^ ds.length + valMSB radix ds
        < d * radix ^ ds.length + radix ^ ds.length := by omega
      _ = (d + 1) * radix ^ ds.length := by ring
      _ ≤ radix * radix ^ ds.length := Nat.mul_le_mul_right _ (by omega)
      _ = radix ^ ds.length * radix := by ring

/-- Among equal-length digit lists with in-range digits, the numeric value
order is reflected in the lexicographic list order. -/
theorem lex_of_valMSB_lt (radix : Nat) (a : List Nat) :
    ∀ b : List Nat, a.length = b.length → (∀ d ∈ a, d < radix) →
      (∀ d ∈ b, d < radix) → valMSB radix a < valMSB radix b → List.lt a b := by
  induction a with
  | nil =>
    intro b hlen _ _ hv
    cases b with
    | nil => simp [valMSB] at hv
    | cons e bs => simp at hlen
  | cons d as ih =>
    intro b hlen ha hb hv
    cases b with
    | nil => simp at hlen
    | cons e bs =>
      have hlen' : as.length = bs.length := by simpa using hlen
      rcases Nat.lt_trichotomy d e with hde | hde | hde
      · exact List.lt.head _ _ hde
      · subst hde
        have hv' : valMSB radix as < valMSB radix bs := by
          simp only [valMSB, hlen'] at hv
          exact Nat.lt_of_add_lt_add_left hv
        exact List.lt.tail (Nat.lt_irrefl d) (Nat.lt_irrefl d)
          (ih bs hlen' (fun x hx => ha x (by simp [hx])) (fun x hx => hb x (by simp [hx])) hv')
      · exfalso
        have h0 : 0 < radix := by
          have := hb e (by simp)
          omega
        have hbs := valMSB_lt_pow radix bs (fun x hx => hb x (by simp [hx])) h0
        simp only [valMSB, hlen'] at hv
        have hstep : (e + 1) * radix ^ bs.length ≤ d * radix ^ bs.length :=
          Nat.mul_le_mul_right _ (by omega)
        have hsucc : (e + 1) * radix ^ bs.length = e * radix ^ bs.length + radix ^ bs.length := by
          ring
        linarith

theorem digitChar_mono : ∀ a, a < 36 → ∀ b, b < 36 → a < b → digitChar a < digitChar b := by
  decide

theorem map_digitChar_lt (a b : List Nat) (hlt : List.lt a b) :
    (∀ d ∈ a, d < 36) → (∀ d ∈ b, d < 36) →
    List.lt (a.map digitChar) (b.map digitChar) := by
  induction hlt with
  | nil e bs =>
    intro _ _
    simp only [List.map_nil, List.map_cons]
    exact List.lt.nil _ _
  | head as bs h =>
    intro ha hb
    simp only [List.map_cons]
    exact List.lt.head _ _
      (digitChar_mono _ (ha _ (by simp)) _ (hb _ (by simp)) h)
  | tail h1 h2 h3 ih =>
    intro ha hb
    simp only [List.map_cons]
    have heads : ∀ p : Nat, ∀ q : Nat, ¬ p < q → ¬ q < p → p = q := fun p q hpq hqp => by omega
    rename_i p ps q qs
    have hpq : p = q := heads p q h1 h2
    subst hpq
    exact List.lt.tail (lt_irrefl _) (lt_irrefl _)
      (ih (fun d hd => ha d (by simp [hd])) (fun d hd => hb d (by simp [hd])))

theorem digitVal_digitChar : ∀ d, d < 36 → digitVal (digitChar d) = d := by
  decide

theorem decode_reverse_map (ds : List Nat) (h : ∀ d ∈ ds, d < 36) :
    List.foldl (fun acc c => acc * 36 + digitVal c) 0 ((ds.map digitChar).reverse) =
      valLSB 36 ds := by
  induction ds with
  | nil => rfl
  | cons d ds ih =>
    simp only [List.map_cons, List.reverse_cons, List.foldl_append, List.foldl_cons,
      List.foldl_nil]
    rw [ih (fun e he => h e (by simp [he]))]
    rw [digitVal_digitChar d (h d (by simp))]
    simp only [valLSB]
    ring

/-- Evaluation of `format_radix` at the production radix 36 in terms of the
digit-value list. -/
theorem format_radix36_eq (t : Nat) :
    format_radix t 36 =
      some ⟨((natDigits 36 (by omega) t).map digitChar).reverse⟩ := by
  unfold format_radix
  rw [formatRadixLoop_congr (by decide : clampRadix 36 = 36) (clampRadix_ge2 36) (by omega) t]
  rw [formatRadixLoop_eq_map]

theorem resolve_after_create (db : LinksDB) (key uri : String) (db1 : LinksDB)
    (h : create db key uri = Except.ok db1) : resolve db1 key = some uri := by
  unfold create at h
  by_cases hc : db.rows.any (fun r => r.1 == key)
  · simp [hc] at h
  · rw [if_neg hc] at h
    have hdb1 : db1 = ⟨db.rows ++ [(key, uri)]⟩ := by
      cases h; rfl
    subst hdb1
    have hnone : db.rows.find? (fun r => r.1 == key) = none := by
      rw [List.find?_eq_none]
      intro r hr hp
      exact hc (List.any_eq_true.mpr ⟨r, hr, hp⟩)
    unfold resolve
    simp [List.find?_append, hnone, List.find?_cons_of_pos]

theorem resolve_applyOp_some (db : LinksDB) (op : Op) (key uri : String)
    (h : resolve db key = some uri) : resolve (applyOp db op) key = some uri := by
  cases op with
  | resolve k => exact h
  | create k u =>
    simp only [applyOp]
    cases hcr : create db k u with
    | error e => exact h
    | ok db1 =>
      unfold create at hcr
      by_cases hc : db.rows.any (fun r => r.1 == k)
      · simp [hc] at hcr
      · rw [if_neg hc] at hcr
        have hdb1 : db1 = ⟨db.rows ++ [(k, u)]⟩ := by
          cases hcr; rfl
        subst hdb1
        unfold resolve at h ⊢
        rcases Option.map_eq_some'.mp h with ⟨r, hr, hr2⟩
        simp [List.find?_append, hr, hr2]

theorem resolve_runOps_some (db : LinksDB) (ops : List Op) (key uri : String)
    (h : resolve db key = some uri) : resolve (runOps db ops) key = some uri := by
  induction ops generalizing db with
  | nil => exact h
  | cons op ops ih =>
    simp only [runOps, List.foldl_cons]
    exact ih (applyOp db op) (resolve_applyOp_some db op key uri h)

theorem resolve_applyOp_none (db : LinksDB) (op : Op) (key : String)
    (hop : ∀ uri, op ≠ Op.create key uri) (h : resolve db key = none) :
    resolve (applyOp db op) key = none := by
  cases op with
  | resolve k => exact h
  | create k u =>
    have hk : (k == key) = false := by
      rcases Bool.eq_false_or_eq_true (k == key) with ht | hf
      · exact absurd (by rw [beq_iff_eq.mp ht] : Op.create k u = Op.create key u) (hop u)
      · exact hf
    simp only [applyOp]
    cases hcr : create db k u with
    | error e => exact h
    | ok db1 =>
      unfold create at hcr
      by_cases hc : db.rows.any (fun r => r.1 == k)
      · simp [hc] at hcr
      · rw [if_neg hc] at hcr
        have hdb1 : db1 = ⟨db.rows ++ [(k, u)]⟩ := by
          cases hcr; rfl
        subst hdb1
        unfold resolve at h ⊢
        rw [Option.map_eq_none'] at h
        simp [List.find?_append, h, hk]

theorem resolve_runOps_none (ops : List Op) : ∀ db : LinksDB, ∀ key : String,
    (∀ uri, Op.create key uri ∉ ops) → resolve db key = none →
    resolve (runOps db ops) key = none := by
  induction ops with
  | nil => intro db key _ h; exact h
  | cons op ops ih =>
    intro db key hop h
    simp only [runOps, List.foldl_cons]
    refine ih (applyOp db op) key (fun uri hin => hop uri (List.mem_cons_of_mem op hin)) ?_
    refine resolve_applyOp_none db op key (fun uri he => hop uri ?_) h
    rw [he]
    exact List.mem_cons_self _ _

/-- C1: Round-trip of the key encoding: for every timestamp `t ≥ 0`,
interpreting the string produced by `format_radix(t, 36)` as a base-36
numeral over the digit alphabet `0-9a-z` (most-significant digit first)
yields exactly `t`; in particular `format_radix(0, 36)` returns the
one-character string `"0"`, not the empty string. -/
theorem radix_roundtrip :
    (∀ t : Nat, ∃ s : String, format_radix t 36 = some s ∧ decodeBase36 s = t) ∧
    format_radix 0 36 = some "0" := by
  constructor
  · intro t
    refine ⟨_, format_radix36_eq t, ?_⟩
    show List.foldl _ 0 (((natDigits 36 (by omega) t).map digitChar).reverse) = t
    rw [decode_reverse_map _ (natDigits_lt 36 (by omega) t)]
    exact valLSB_natDigits 36 (by omega) t
  · have h := format_radix_eval 0 36 41 ['0'] (by rfl)
    rw [h]
    decide

/-- C2: for every `key` and `uri`, if `create key uri` succeeds (the row is
inserted into the links store), then every subsequent `resolve key`, after
any further sequence of exposed operations by any caller, returns exactly
that `uri`. -/
theorem create_then_resolve (db : LinksDB) (key uri : String) (db1 : LinksDB)
    (h : create db key uri = Except.ok db1) (ops : List Op) :
    resolve (runOps db1 ops) key = some uri :=
  resolve_runOps_some db1 ops key uri (resolve_after_create db key uri db1 h)

theorem create_then_resolve_witness :
    create emptyDB "k" "u" = Except.ok (⟨[("k", "u")]⟩ : LinksDB) ∧
    resolve (runOps (⟨[("k", "u")]⟩ : LinksDB) [Op.create "k" "v", Op.resolve "k"]) "k"
      = some "u" :=
  ⟨rfl, create_then_resolve emptyDB "k" "u" ⟨[("k", "u")]⟩ rfl
    [Op.create "k" "v", Op.resolve "k"]⟩

/-- C3: after `create key uri1` succeeds, a second `create` with the same key
and a different uri fails with `KeyConflict` (it is not silently accepted and
does not overwrite), and a subsequent `resolve key` still returns `uri1` -
both on the state where the second create failed and after its (rejected)
application. -/
theorem create_conflict (db : LinksDB) (key uri1 uri2 : String) (db1 : LinksDB)
    (hne : uri1 ≠ uri2) (h : create db key uri1 = Except.ok db1) :
    create db1 key uri2 = Except.error StoreError.KeyConflict ∧
    resolve db1 key = some uri1 ∧
    resolve (applyOp db1 (Op.create key uri2)) key = some uri1 := by
  have hres := resolve_after_create db key uri1 db1 h
  have hconf : create db1 key uri2 = Except.error StoreError.KeyConflict := by
    unfold create at h ⊢
    by_cases hc : db.rows.any (fun r => r.1 == key)
    · simp [hc] at h
    · rw [if_neg hc] at h
      have hdb1 : db1 = ⟨db.rows ++ [(key, uri1)]⟩ := by
        cases h; rfl
      subst hdb1
      have hany : (db.rows ++ [(key, uri1)]).any (fun r => r.1 == key) = true := by
        rw [List.any_append]
        simp
      rw [if_pos hany]
  refine ⟨hconf, hres, ?_⟩
  simp only [applyOp]
  rw [hconf]
  exact hres

theorem create_conflict_witness :
    ("u" : String) ≠ "v" ∧
    create (⟨[("k", "u")]⟩ : LinksDB) "k" "v" = Except.error StoreError.KeyConflict ∧
    resolve (⟨[("k", "u")]⟩ : LinksDB) "k" = some "u" ∧
    resolve (applyOp (⟨[("k", "u")]⟩ : LinksDB) (Op.create "k" "v")) "k" = some "u" := by
  have h := create_conflict emptyDB "k" "u" "v" ⟨[("k", "u")]⟩ (by decide) rfl
  exact ⟨by decide, h.1, h.2.1, h.2.2⟩

/-- C4: for every key on which no create has ever been performed, `resolve`
on the store grown from the initial empty table returns the explicit absence
signal `none` (not an error and not a value). -/
theorem resolve_fresh_key (ops : List Op) (key : String)
    (h : ∀ uri, Op.create key uri ∉ ops) :
    resolve (runOps emptyDB ops) key = none :=
  resolve_runOps_none ops emptyDB key h rfl

theorem resolve_fresh_key_witness :
    resolve (runOps emptyDB [Op.create "a" "x", Op.resolve "b"]) "b" = none := by
  apply resolve_fresh_key
  intro uri
  simp

/-- C5 (counterexample to the example in the spec): encoding the timestamp
1700000000000 at radix 36 does not yield the key "kf1sf5w0" claimed by the
end-to-end scenario of the spec. -/
theorem timestamp_key_spec_counterexample :
    format_radix 1700000000000 36 ≠ some "kf1sf5w0" := by
  have h := format_radix_eval 1700000000000 36 41 ("loyw3v28".data.reverse) (by rfl)
  rw [h]
  decide

/-- C5 (amended): encoding the timestamp 1700000000000 (milliseconds since
the epoch) at radix 36 with `format_radix` yields the key "loyw3v28". -/
theorem timestamp_key_value :
    format_radix 1700000000000 36 = some "loyw3v28" := by
  have h := format_radix_eval 1700000000000 36 41 ("loyw3v28".data.reverse) (by rfl)
  rw [h]
  decide

/-- C6: length-conditional monotonicity of key ordering: for timestamps
`t1 < t2` whose base-36 encodings have the same digit length, the key for
`t1` sorts strictly before the key for `t2` in lexicographic string order. -/
theorem key_order_equal_length (t1 t2 : Nat) (hlt : t1 < t2) (s1 s2 : String)
    (h1 : format_radix t1 36 = some s1) (h2 : format_radix t2 36 = some s2)
    (hlen : s1.length = s2.length) : s1 < s2 := by
  have h36 : (2 : Nat) ≤ 36 := by omega
  rw [format_radix36_eq t1] at h1
  rw [format_radix36_eq t2] at h2
  injection h1 with h1
  injection h2 with h2
  subst h1
  subst h2
  rw [String.lt_iff_toList_lt]
  have hb1 : ∀ d ∈ (natDigits 36 h36 t1).reverse, d < 36 := fun d hd =>
    natDigits_lt 36 h36 t1 d (List.mem_reverse.mp hd)
  have hb2 : ∀ d ∈ (natDigits 36 h36 t2).reverse, d < 36 := fun d hd =>
    natDigits_lt 36 h36 t2 d (List.mem_reverse.mp hd)
  have hlex : List.lt ((natDigits 36 h36 t1).reverse) ((natDigits 36 h36 t2).reverse) := by
    apply lex_of_valMSB_lt 36
    · have hlen2 := hlen
      simp only [String.length, List.length_reverse, List.length_map] at hlen2
      simpa using hlen2
    · exact hb1
    · exact hb2
    · rw [valMSB_reverse, valMSB_reverse, valLSB_natDigits, valLSB_natDigits]
      exact hlt
  have hmap := map_digitChar_lt _ _ hlex hb1 hb2
  rw [List.map_reverse, List.map_reverse] at hmap
  exact (List.lt_iff_lex_lt _ _).mp hmap

theorem key_order_witness :
    format_radix 36 36 = some "10" ∧ format_radix 37 36 = some "11" ∧
    ("10" : String) < "11" := by
  have e1 : format_radix 36 36 = some "10" := by
    have h := format_radix_eval 36 36 41 ("10".data.reverse) (by rfl)
    rw [h]
    decide
  have e2 : format_radix 37 36 = some "11" := by
    have h := format_radix_eval 37 36 41 ("11".data.reverse) (by rfl)
    rw [h]
    decide
  exact ⟨e1, e2, key_order_equal_length 36 37 (by omega) "10" "11" e1 e2 (by decide)⟩

/-- C7: radix clamping: `format_radix x r` equals `format_radix x` at the
clamped radix, and the effective radix always lies in `[2, 36]`. -/
theorem radix_clamped (x radix : Nat) :
    format_radix x radix = format_radix x (clampRadix radix) ∧
    2 ≤ clampRadix radix ∧ clampRadix radix ≤ 36 := by
  refine ⟨?_, clampRadix_ge2 radix, clampRadix_le36 radix⟩
  unfold format_radix
  rw [formatRadixLoop_congr (clampRadix_idem radix).symm (clampRadix_ge2 radix)
    (clampRadix_ge2 (clampRadix radix)) x]

/-- C8: immutability invariant of the link store: in every state reachable by
any sequence of the exposed operations, once a `(key, uri)` pair resolves it
keeps resolving to the same `uri` - no operation updates or deletes an
existing mapping. -/
theorem links_immutable (db : LinksDB) (key uri : String)
    (h : resolve db key = some uri) (ops : List Op) :
    resolve (runOps db ops) key = some uri :=
  resolve_runOps_some db ops key uri h

theorem links_immutable_witness :
    resolve (⟨[("k", "u")]⟩ : LinksDB) "k" = some "u" ∧
    resolve (runOps (⟨[("k", "u")]⟩ : LinksDB) [Op.create "k" "v", Op.create "j" "w"]) "k"
      = some "u" := by
  have h1 : resolve (⟨[("k", "u")]⟩ : LinksDB) "k" = some "u" := by decide
  exact ⟨h1, links_immutable ⟨[("k", "u")]⟩ "k" "u" h1 [Op.create "k" "v", Op.create "j" "w"]⟩

/-- C9: internal safety of the digit conversion: for every input `x` and
radix argument, the `std::char.from_digit` call inside `format_radix` never
fails (the function never reaches the modelled panic), because after clamping
the remainder `x % radix` is strictly below the clamped radix. -/
theorem from_digit_never_fails (x radix : Nat) :
    (format_radix x radix).isSome = true ∧ x % clampRadix radix < clampRadix radix := by
  constructor
  · unfold format_radix
    rw [formatRadixLoop_eq_map]
    rfl
  · exact Nat.mod_lt x (by have := clampRadix_ge2 radix; omega)

/-- C10: termination of the encoding loop: for every input `x` and every
radix argument, the loop of `format_radix` (modelled step by step by
`formatRadixIter`) reaches its `break` within some finite number of
iterations, because the clamped radix is at least 2, so division strictly
decreases `x` until it reaches 0. -/
theorem loop_terminates (x radix : Nat) :
    ∃ fuel, (formatRadixIter (clampRadix radix) fuel x).isSome = true := by
  refine ⟨x + 1, ?_⟩
  rw [formatRadixIter_eq_loop (clampRadix radix) (clampRadix_ge2 radix) (x + 1) x
    (Nat.lt_succ_self x)]
  rfl

end LinkShortener
